import Mathlib

/-!
Verification of the blockchain ledger core of `votinga1.py`: the `Transaction`,
`Block` and `Blockchain` classes with their canonical hashing (`compute_hash`),
proof-of-work mining (`mine_block`), append (`add_block`) and validation
(`is_chain_valid`) algorithms.

Modelling conventions, all taken from the source:
* Python `hashlib.sha256(...).hexdigest()` is implemented in full below
  (`sha256hex`), over byte lists with 32-bit words as `Nat % 2^32`.
* `json.dumps(block_dict, sort_keys=True, separators=(",", ":"))` is modelled
  by `Block.block_string` / `Transaction.to_dict_string`, with the keys written
  in sorted order and the default `ensure_ascii` escaping (`escChar`).
* Block and transaction timestamps come from `time.time()`, a Python float.
  They are modelled as natural numbers `t` standing for the exact integral
  floats whose Python `repr` is `"<t>.0"` (true for all integral floats below
  `10^16`); `floatRepr` renders that JSON token. The claims under study do not
  depend on any other float behaviour.
* `difficulty` is a Python `int` and is modelled as `Int`; the PoW target
  string `"0" * difficulty` is `difficultyZeros`, empty when `difficulty ≤ 0`,
  exactly as in Python.
* The unbounded `while True` mining loop becomes the fuel-indexed `mineFrom`;
  `none` means the loop has not terminated within `fuel` iterations.  Mutating
  methods return their updated objects; `Blockchain.__init__` is
  `Blockchain.create` (the genesis timestamp, produced by `time.time()`, is an
  explicit argument).
-/

set_option maxRecDepth 40000

/-- Truncate a natural number to 32 bits. -/
def w32 (n : Nat) : Nat := n % 4294967296

/-- Rotate a 32-bit word right by k bits. -/
def rotr (k n : Nat) : Nat := ((n >>> k) ||| (n <<< (32 - k))) % 4294967296

/-- SHA-256 choice function. -/
def ch32 (x y z : Nat) : Nat := (x &&& y) ^^^ ((x ^^^ 4294967295) &&& z)

/-- SHA-256 majority function. -/
def maj32 (x y z : Nat) : Nat := (x &&& y) ^^^ (x &&& z) ^^^ (y &&& z)

/-- SHA-256 big sigma 0. -/
def bsig0 (x : Nat) : Nat := rotr 2 x ^^^ rotr 13 x ^^^ rotr 22 x

/-- SHA-256 big sigma 1. -/
def bsig1 (x : Nat) : Nat := rotr 6 x ^^^ rotr 11 x ^^^ rotr 25 x

/-- SHA-256 small sigma 0. -/
def ssig0 (x : Nat) : Nat := rotr 7 x ^^^ rotr 18 x ^^^ (x >>> 3)

/-- SHA-256 small sigma 1. -/
def ssig1 (x : Nat) : Nat := rotr 17 x ^^^ rotr 19 x ^^^ (x >>> 10)

/-- The 64 SHA-256 round constants. -/
def shaK : List Nat :=
  [1116352408, 1899447441, 3049323471, 3921009573, 961987163, 1508970993,
   2453635748, 2870763221, 3624381080, 310598401, 607225278, 1426881987,
   1925078388, 2162078206, 2614888103, 3248222580, 3835390401, 4022224774,
   264347078, 604807628, 770255983, 1249150122, 1555081692, 1996064986,
   2554220882, 2821834349, 2952996808, 3210313671, 3336571891, 3584528711,
   113926993, 338241895, 666307205, 773529912, 1294757372, 1396182291,
   1695183700, 1986661051, 2177026350, 2456956037, 2730485921, 2820302411,
   3259730800, 3345764771, 3516065817, 3600352804, 4094571909, 275423344,
   430227734, 506948616, 659060556, 883997877, 958139571, 1322822218,
   1537002063, 1747873779, 1955562222, 2024104815, 2227730452, 2361852424,
   2428436474, 2756734187, 3204031479, 3329325298]

/-- The SHA-256 initial state. -/
def shaH0 : List Nat :=
  [1779033703, 3144134277, 1013904242, 2773480762, 1359893119,
   2600822924, 528734635, 1541459225]

/-- One step of the message-schedule extension, on the reversed word list. -/
def schedStep (rws : List Nat) : List Nat :=
  w32 (ssig1 (rws.getD 1 0) + rws.getD 6 0 + ssig0 (rws.getD 14 0) + rws.getD 15 0) :: rws

/-- Extend 16 words to the full 64-word message schedule. -/
def schedule16 (ws : List Nat) : List Nat := (schedStep^[48] ws.reverse).reverse

/-- The 64 compression rounds, driven by the K constants and the schedule. -/
def shaRounds : List Nat → List Nat → List Nat → List Nat
  | st, k :: ks, w :: ws =>
    match st with
    | [a, b, c, d, e, f, g, h] =>
      let t1 := w32 (h + bsig1 e + ch32 e f g + k + w)
      let t2 := w32 (bsig0 a + maj32 a b c)
      shaRounds [w32 (t1 + t2), a, b, c, w32 (d + t1), e, f, g] ks ws
    | _ => st
  | st, _, _ => st

/-- Big-endian packing of bytes into 32-bit words. -/
def toWords : List Nat → List Nat
  | b0 :: b1 :: b2 :: b3 :: rest => (((b0 * 256 + b1) * 256 + b2) * 256 + b3) :: toWords rest
  | _ => []

/-- Process one 64-byte chunk: compression rounds plus feed-forward. -/
def sha256Chunk (st chunk : List Nat) : List Nat :=
  List.zipWith (fun a b => w32 (a + b)) st (shaRounds st shaK (schedule16 (toWords chunk)))

/-- Fold the compression function over all 64-byte chunks.  The fuel is only a
structural-termination device; `processChunks` supplies more than enough. -/
def processChunksF : Nat → List Nat → List Nat → List Nat
  | 0, st, _ => st
  | fuel + 1, st, bytes =>
    if bytes.length < 64 then st
    else processChunksF fuel (sha256Chunk st (bytes.take 64)) (bytes.drop 64)

/-- Process every 64-byte chunk of a (padded) message. -/
def processChunks (st bytes : List Nat) : List Nat :=
  processChunksF (bytes.length) st bytes

/-- Big-endian 8-byte encoding of a number (the message bit length). -/
def lenBytes8 (n : Nat) : List Nat :=
  [(n >>> 56) % 256, (n >>> 48) % 256, (n >>> 40) % 256, (n >>> 32) % 256,
   (n >>> 24) % 256, (n >>> 16) % 256, (n >>> 8) % 256, n % 256]

/-- SHA-256 padding: append 0x80, zeros to 56 mod 64, then the 64-bit bit length. -/
def padMessage (m : List Nat) : List Nat :=
  m ++ 128 :: List.replicate ((119 - m.length % 64) % 64) 0 ++ lenBytes8 (8 * m.length)

/-- Lower-case hexadecimal digit. -/
def hexDigit (n : Nat) : Char := if n < 10 then Char.ofNat (48 + n) else Char.ofNat (87 + n)

/-- Lower-case hex rendering of a 32-bit word, 8 digits. -/
def word8hex (w : Nat) : List Char :=
  [hexDigit ((w >>> 28) % 16), hexDigit ((w >>> 24) % 16), hexDigit ((w >>> 20) % 16),
   hexDigit ((w >>> 16) % 16), hexDigit ((w >>> 12) % 16), hexDigit ((w >>> 8) % 16),
   hexDigit ((w >>> 4) % 16), hexDigit (w % 16)]

/-- SHA-256 of a byte list, as the lower-case 64-character hex string that
`hashlib.sha256(...).hexdigest()` returns. -/
def sha256hex (bytes : List Nat) : String :=
  String.mk ((processChunks shaH0 (padMessage bytes)).map word8hex).flatten

/-- UTF-8 encoding of a character list, modelling Python `str.encode()`. -/
def utf8Bytes : List Char → List Nat
  | [] => []
  | c :: cs =>
    let n := c.toNat
    (if n < 128 then [n]
     else if n < 2048 then [192 + n / 64, 128 + n % 64]
     else if n < 65536 then [224 + n / 4096, 128 + (n / 64) % 64, 128 + n % 64]
     else [240 + n / 262144, 128 + (n / 4096) % 64, 128 + (n / 64) % 64, 128 + n % 64])
    ++ utf8Bytes cs

/-- Four lower-case hex digits, for a `backslash-u` JSON escape. -/
def hexDigit16 (n : Nat) : List Char :=
  [hexDigit ((n >>> 12) % 16), hexDigit ((n >>> 8) % 16), hexDigit ((n >>> 4) % 16), hexDigit (n % 16)]

/-- JSON string escaping as performed by `json.dumps` with its default
`ensure_ascii=True`: short escapes for quote, backslash and the usual control
characters, unicode escapes for the rest outside printable ASCII, surrogate
pairs beyond the BMP. -/
def escChar (c : Char) : List Char :=
  let n := c.toNat
  if n = 34 then ['\\', '"']
  else if n = 92 then ['\\', '\\']
  else if n = 8 then ['\\', 'b']
  else if n = 9 then ['\\', 't']
  else if n = 10 then ['\\', 'n']
  else if n = 12 then ['\\', 'f']
  else if n = 13 then ['\\', 'r']
  else if 32 <= n && n <= 126 then [c]
  else if n < 65536 then '\\' :: 'u' :: hexDigit16 n
  else
    '\\' :: 'u' :: hexDigit16 (55296 + (n - 65536) / 1024)
      ++ '\\' :: 'u' :: hexDigit16 (56320 + (n - 65536) % 1024)

/-- A JSON string literal for `s`, quotes included. -/
def jsonStr (s : String) : String :=
  "\"" ++ String.mk (s.data.map escChar).flatten ++ "\""

/-- JSON rendering of a timestamp: the Python `repr` of the integral float `t`
(see the header: timestamps are modelled as exact integral floats). -/
def floatRepr (t : Nat) : String := toString t ++ ".0"

/-- The `Transaction` dataclass: one vote record. -/
structure Transaction where
  voter_id : String
  candidate_id : String
  timestamp : Nat
deriving DecidableEq

/-- Serialization of `Transaction.to_dict()` inside the sorted-keys JSON dump:
keys in sorted order `candidate_id`, `timestamp`, `voter_id`. -/
def Transaction.to_dict_string (t : Transaction) : String :=
  "\x7b\"candidate_id\":" ++ jsonStr t.candidate_id ++ ",\"timestamp\":" ++ floatRepr t.timestamp
    ++ ",\"voter_id\":" ++ jsonStr t.voter_id ++ "\x7d"

/-- The `Block` dataclass. -/
structure Block where
  index : Nat
  timestamp : Nat
  transactions : List Transaction
  previous_hash : String
  nonce : Nat
  hash : String
deriving DecidableEq

/-- Comma-joined list of strings (JSON array elements with separator ","). -/
def commaSep : List String → String
  | [] => ""
  | [s] => s
  | s :: rest => s ++ "," ++ commaSep rest

/-- The stable JSON representation hashed by `Block.compute_hash`:
`json.dumps(block_dict, sort_keys=True, separators=(",", ":"))` with keys in
sorted order `index`, `nonce`, `previous_hash`, `timestamp`, `transactions`.
The `hash` field is not part of the dictionary. -/
def Block.block_string (b : Block) : String :=
  "\x7b\"index\":" ++ toString b.index ++ ",\"nonce\":" ++ toString b.nonce
    ++ ",\"previous_hash\":" ++ jsonStr b.previous_hash
    ++ ",\"timestamp\":" ++ floatRepr b.timestamp
    ++ ",\"transactions\":[" ++ commaSep (b.transactions.map Transaction.to_dict_string) ++ "]\x7d"

/-- `Block.compute_hash`: SHA-256 hex digest of the UTF-8 encoded stable JSON
representation of the block. -/
def Block.compute_hash (b : Block) : String :=
  sha256hex (utf8Bytes b.block_string.data)

/-- The `Blockchain` class state: the chain and the difficulty parameter
(a Python `int`, hence `Int`). -/
structure Blockchain where
  chain : List Block
  difficulty : Int
deriving DecidableEq

/-- The PoW target `"0" * difficulty`; as in Python, empty for `difficulty ≤ 0`. -/
def difficultyZeros (d : Int) : String := String.mk (List.replicate d.toNat '0')

/-- Python `str.startswith`: the target is a character-wise prefix. -/
def strStartsWith (s target : String) : Bool := target.data.isPrefixOf s.data

/-- The body of `Blockchain.mine_block`'s `while True` loop, fuel-indexed:
compute the hash; if it meets the target, store it and stop; otherwise
increment the nonce by 1 and retry.  `none` means the loop is still running
after `fuel` iterations. -/
def mineFrom (target : String) : Nat → Block → Option Block
  | 0, _ => none
  | fuel + 1, b =>
    let computed_hash := b.compute_hash
    if strStartsWith computed_hash target then some { b with hash := computed_hash }
    else mineFrom target fuel { b with nonce := b.nonce + 1 }

/-- `Blockchain.mine_block`: mine a block against this ledger's difficulty. -/
def Blockchain.mine_block (bc : Blockchain) (b : Block) (fuel : Nat) : Option Block :=
  mineFrom (difficultyZeros bc.difficulty) fuel b

/-- Default block used only to make `last_block` total; Python raises
`IndexError` on `chain[-1]` of an empty chain, which never occurs because the
genesis block is appended during construction. -/
def emptyBlock : Block :=
  { index := 0, timestamp := 0, transactions := [], previous_hash := "", nonce := 0, hash := "" }

/-- Last block of a list, seeded with the block standing before the list. -/
def lastFrom (p : Block) : List Block → Block
  | [] => p
  | c :: rest => lastFrom c rest

/-- `Blockchain.last_block`: the chain's final element (`self.chain[-1]`). -/
def Blockchain.last_block (bc : Blockchain) : Block := lastFrom emptyBlock bc.chain

/-- `Blockchain.add_block`: overwrite the candidate's `previous_hash` with the
current last block's hash, mine it, append it. -/
def Blockchain.add_block (bc : Blockchain) (b : Block) (fuel : Nat) : Option Blockchain :=
  match bc.mine_block { b with previous_hash := bc.last_block.hash } fuel with
  | none => none
  | some mined => some { bc with chain := bc.chain ++ [mined] }

/-- `Blockchain.__init__` plus `create_genesis_block`: build the block with
`index=0`, empty transactions and the sentinel `previous_hash="0"`, mine it,
and make it the sole element of the chain.  The constructor performs no
validation of `difficulty`. -/
def Blockchain.create (difficulty : Int) (genesisTime : Nat) (fuel : Nat) : Option Blockchain :=
  match mineFrom (difficultyZeros difficulty)
      fuel
      { index := 0, timestamp := genesisTime, transactions := [],
        previous_hash := "0", nonce := 0, hash := "" } with
  | none => none
  | some mined => some { chain := [mined], difficulty := difficulty }

/-- The per-index loop body of `Blockchain.is_chain_valid`, expressed as a
recursion over adjacent pairs: for each `(previous, current)` pair check the
linkage, the recomputed hash, and the PoW target. -/
def pairChecks (target : String) : List Block → Bool
  | previous :: current :: rest =>
    (current.previous_hash == previous.hash) && (current.compute_hash == current.hash)
      && strStartsWith current.hash target && pairChecks target (current :: rest)
  | _ => true

/-- `Blockchain.is_chain_valid`: the pairwise loop from index 1 upward, then
the genesis check (`chain[0]`): recomputed hash equals stored hash and the
stored hash meets the target.  A single boolean is returned.  The `[]` branch
is unreachable (Python would raise on `self.chain[0]`; the chain is never
empty). -/
def Blockchain.is_chain_valid (bc : Blockchain) : Bool :=
  match bc.chain with
  | [] => false
  | genesis :: rest =>
    pairChecks (difficultyZeros bc.difficulty) (genesis :: rest)
      && (genesis.compute_hash == genesis.hash)
      && strStartsWith genesis.hash (difficultyZeros bc.difficulty)

/-- State-passing rendition of the validation loop: the `Blockchain` value is
threaded through every iteration, so that what the method does to the object
is visible in the returned state.  The source loop contains no assignment, so
each branch returns the state it received. -/
def pairChecksRun (target : String) : List Block → Blockchain → Bool × Blockchain
  | previous :: current :: rest, st =>
    if current.previous_hash == previous.hash then
      if current.compute_hash == current.hash then
        if strStartsWith current.hash target then pairChecksRun target (current :: rest) st
        else (false, st)
      else (false, st)
    else (false, st)
  | _, st => (true, st)

/-- State-passing rendition of `Blockchain.is_chain_valid`: returns the
boolean verdict together with the (per the source, untouched) object state. -/
def Blockchain.is_chain_valid_run (bc : Blockchain) : Bool × Blockchain :=
  match pairChecksRun (difficultyZeros bc.difficulty) bc.chain bc with
  | (false, st) => (false, st)
  | (true, st) =>
    match st.chain with
    | [] => (false, st)
    | genesis :: _ =>
      ((genesis.compute_hash == genesis.hash)
        && strStartsWith genesis.hash (difficultyZeros st.difficulty), st)

/-- A hex string has at least `d` leading zero characters (spec wording for
the PoW predicate; for `d ≤ 0` the requirement is vacuous). -/
def hashMeetsDifficulty (s : String) (d : Int) : Prop :=
  s.data.take d.toNat = List.replicate d.toNat '0'

/-- The chain property stated by the specification of `is_chain_valid`: for
every `i > 0`, `chain[i].previous_hash` equals `chain[i-1].hash`; every block
(the genesis included) has stored hash equal to its recomputed canonical hash
and a stored hash with at least `difficulty` leading zero hex characters.  The
genesis `previous_hash` sentinel is not compared to anything. -/
def SpecChainValid (bc : Blockchain) : Prop :=
  ∀ i, ∀ h : i < bc.chain.length,
    (0 < i → (bc.chain.get ⟨i, h⟩).previous_hash = (bc.chain.get ⟨i - 1, by omega⟩).hash) ∧
    (bc.chain.get ⟨i, h⟩).compute_hash = (bc.chain.get ⟨i, h⟩).hash ∧
    hashMeetsDifficulty (bc.chain.get ⟨i, h⟩).hash bc.difficulty

/-- The four ledger invariants of the specification: non-empty chain, pairwise
linkage, recomputed-hash agreement for every block, and the PoW predicate for
every block. -/
def LedgerInvariants (bc : Blockchain) : Prop :=
  bc.chain ≠ [] ∧
  (∀ i, ∀ h : i < bc.chain.length,
    0 < i → (bc.chain.get ⟨i, h⟩).previous_hash = (bc.chain.get ⟨i - 1, by omega⟩).hash) ∧
  (∀ b ∈ bc.chain, Block.compute_hash b = b.hash) ∧
  (∀ b ∈ bc.chain, hashMeetsDifficulty b.hash bc.difficulty)

/-- Relational form of the chain checks: walking the tail of the chain with
the preceding block at hand, every block is linked to its predecessor, has a
correct stored hash, and meets the PoW target. -/
def ChainRel (target : String) : Block → List Block → Prop
  | _, [] => True
  | p, c :: rest =>
    c.previous_hash = p.hash ∧ c.compute_hash = c.hash ∧
    strStartsWith c.hash target = true ∧ ChainRel target c rest

/-- Ledgers reachable by the two mutations of the class: construction (which
mines the genesis block) followed by any number of successful `add_block`
calls. -/
inductive Built : Blockchain → Prop
  | create : ∀ d t fuel bc, Blockchain.create d t fuel = some bc → Built bc
  | add : ∀ bc b fuel bc', Built bc → bc.add_block b fuel = some bc' → Built bc'

/-- Genesis block literal used by the concrete witnesses (timestamp 1000). -/
def gBlock : Block :=
  { index := 0, timestamp := 1000, transactions := [], previous_hash := "0", nonce := 0, hash := "" }

/-- The mined genesis at difficulty 0: hash assigned on the first attempt. -/
def gMined : Block := { gBlock with hash := gBlock.compute_hash }

/-- One-block ledger at difficulty 0. -/
def bcOne : Blockchain := { chain := [gMined], difficulty := 0 }

/-- The genesis block literal that `Blockchain.create` mines, at timestamp t. -/
def genesisAt (t : Nat) : Block :=
  { index := 0, timestamp := t, transactions := [], previous_hash := "0", nonce := 0, hash := "" }

/-- The genesis block mined on the first attempt (difficulty at most 0). -/
def genesisMinedAt (t : Nat) : Block := { genesisAt t with hash := (genesisAt t).compute_hash }

/-- A vote by voter v1 for candidate c1. -/
def tx1 : Transaction := { voter_id := "v1", candidate_id := "c1", timestamp := 1000 }

/-- Candidate second block handed to `add_block` (its `previous_hash` is a
placeholder that `add_block` overwrites). -/
def cand1 : Block :=
  { index := 1, timestamp := 1001, transactions := [tx1], previous_hash := "ignored",
    nonce := 0, hash := "" }

/-- The candidate after `add_block` re-links it to the genesis hash. -/
def b1Linked : Block := { cand1 with previous_hash := gMined.hash }

/-- The mined second block at difficulty 0. -/
def b1Mined : Block := { b1Linked with hash := b1Linked.compute_hash }

/-- Two-block ledger at difficulty 0. -/
def bcTwo : Blockchain := { chain := [gMined, b1Mined], difficulty := 0 }

/-- Candidate third block (empty transactions). -/
def cand2 : Block :=
  { index := 2, timestamp := 1002, transactions := [], previous_hash := "", nonce := 0, hash := "" }

/-- The third block re-linked to the second block's hash. -/
def b2Linked : Block := { cand2 with previous_hash := b1Mined.hash }

/-- The mined third block at difficulty 0. -/
def b2Mined : Block := { b2Linked with hash := b2Linked.compute_hash }

/-- Three-block ledger at difficulty 0. -/
def bcThree : Blockchain := { chain := [gMined, b1Mined, b2Mined], difficulty := 0 }

/-- The second block with its transaction's `candidate_id` flipped from "c1"
to "c2" after mining, stored hash left untouched. -/
def b1Tampered : Block :=
  { b1Mined with transactions := [{ voter_id := "v1", candidate_id := "c2", timestamp := 1000 }] }

/-- A difficulty-1 ledger (chain contents irrelevant to `mine_block`). -/
def bcDiffOne : Blockchain := { chain := [], difficulty := 1 }

/-- A short block whose least satisfying nonce at difficulty 1 is 3. -/
def bT : Block :=
  { index := 1, timestamp := 1017, transactions := [], previous_hash := "p", nonce := 0, hash := "" }

/-- A candidate block carrying index 5 on a chain of length 1. -/
def candIdx5 : Block :=
  { index := 5, timestamp := 1003, transactions := [], previous_hash := "z", nonce := 0, hash := "" }

/-- The index-5 block re-linked to the genesis hash. -/
def bIdx5Linked : Block := { candIdx5 with previous_hash := gMined.hash }

/-- The mined index-5 block at difficulty 0. -/
def bIdx5Mined : Block := { bIdx5Linked with hash := bIdx5Linked.compute_hash }

/-- Ledger whose second block carries the out-of-place index 5. -/
def bcIdx5 : Blockchain := { chain := [gMined, bIdx5Mined], difficulty := 0 }

/-- The canonical hash reads exactly the five serialized fields: blocks that
agree on `index`, `timestamp`, `transactions`, `previous_hash` and `nonce`
serialize, hence hash, identically; the stored `hash` field is not read. -/
theorem compute_hash_ext (b1 b2 : Block) (h1 : b1.index = b2.index)
    (h2 : b1.timestamp = b2.timestamp) (h3 : b1.transactions = b2.transactions)
    (h4 : b1.previous_hash = b2.previous_hash) (h5 : b1.nonce = b2.nonce) :
    b1.compute_hash = b2.compute_hash := by
  simp only [Block.compute_hash, Block.block_string, h1, h2, h3, h4, h5]

/-- A replicate is a Boolean prefix of a list exactly when taking that many
elements yields the replicate. -/
theorem isPrefixOf_replicate_iff (a : Char) :
    ∀ (n : Nat) (l : List Char),
      (List.replicate n a).isPrefixOf l = true ↔ l.take n = List.replicate n a := by
  intro n
  induction n with
  | zero => intro l; simp [List.isPrefixOf]
  | succ k ih =>
    intro l
    cases l with
    | nil => simp [List.replicate, List.isPrefixOf]
    | cons x xs =>
      simp only [List.replicate, List.isPrefixOf, List.take, Bool.and_eq_true, beq_iff_eq,
        List.cons.injEq, ih xs]
      tauto

/-- Boolean `startswith` on the zero target agrees with the leading-zeros
specification predicate. -/
theorem strStartsWith_iff_meets (s : String) (d : Int) :
    strStartsWith s (difficultyZeros d) = true ↔ hashMeetsDifficulty s d :=
  isPrefixOf_replicate_iff '0' d.toNat s.data

/-- For a non-positive difficulty the PoW target is the empty string, which
every hash starts with. -/
theorem strStartsWith_nonpos (s : String) (d : Int) (hd : d ≤ 0) :
    strStartsWith s (difficultyZeros d) = true := by
  have h0 : d.toNat = 0 := Int.toNat_of_nonpos hd
  simp [strStartsWith, difficultyZeros, h0, List.isPrefixOf]

/-- Anatomy of a successful mining run: the result is the input block at some
nonce `m` at least the starting nonce, with the canonical hash at `m` stored;
that hash meets the target, and no nonce between the start and `m` does
(the loop increments by exactly 1 per failed attempt). -/
theorem mineFrom_spec (target : String) :
    ∀ (fuel : Nat) (b b' : Block), mineFrom target fuel b = some b' →
    ∃ m, b.nonce ≤ m ∧
      b' = { b with nonce := m, hash := Block.compute_hash { b with nonce := m } } ∧
      strStartsWith (Block.compute_hash { b with nonce := m }) target = true ∧
      ∀ k, b.nonce ≤ k → k < m →
        strStartsWith (Block.compute_hash { b with nonce := k }) target = false := by
  intro fuel
  induction fuel with
  | zero => intro b b' h; simp [mineFrom] at h
  | succ n ih =>
    intro b b' h
    simp only [mineFrom] at h
    by_cases hc : strStartsWith b.compute_hash target = true
    · rw [if_pos hc] at h
      refine ⟨b.nonce, Nat.le_refl _, ?_, ?_, ?_⟩
      · exact (Option.some.inj h).symm
      · exact hc
      · intro k hk1 hk2; omega
    · rw [if_neg hc] at h
      obtain ⟨m, hm1, hm2, hm3, hm4⟩ := ih { b with nonce := b.nonce + 1 } b' h
      have hm1' : b.nonce + 1 ≤ m := hm1
      refine ⟨m, by omega, hm2, hm3, ?_⟩
      intro k hk1 hk2
      by_cases hk : k = b.nonce
      · subst hk
        exact Bool.eq_false_iff.mpr hc
      · refine hm4 k ?_ hk2
        show b.nonce + 1 ≤ k
        omega

/-- If some nonce within reach of the fuel satisfies the target, the mining
loop terminates. -/
theorem mineFrom_complete (target : String) :
    ∀ (fuel : Nat) (b : Block) (n : Nat), b.nonce ≤ n → n < b.nonce + fuel →
      strStartsWith (Block.compute_hash { b with nonce := n }) target = true →
      (mineFrom target fuel b).isSome = true := by
  intro fuel
  induction fuel with
  | zero => intro b n h1 h2 _; omega
  | succ k ih =>
    intro b n h1 h2 h3
    simp only [mineFrom]
    by_cases hc : strStartsWith b.compute_hash target = true
    · rw [if_pos hc]; rfl
    · rw [if_neg hc]
      have hne : n ≠ b.nonce := by
        intro he; subst he; exact hc h3
      exact ih { b with nonce := b.nonce + 1 } n (by simp; omega) (by simp; omega) h3

/-- The mining loop's result is determined: whatever the fuel, a successful
run stops at the least satisfying nonce. -/
theorem mineFrom_least (target : String) (b : Block) (m : Nat)
    (h1 : b.nonce ≤ m)
    (h2 : strStartsWith (Block.compute_hash { b with nonce := m }) target = true)
    (h3 : ∀ k, b.nonce ≤ k → k < m →
      strStartsWith (Block.compute_hash { b with nonce := k }) target = false) :
    ∀ fuel b', mineFrom target fuel b = some b' →
      b' = { b with nonce := m, hash := Block.compute_hash { b with nonce := m } } := by
  intro fuel b' h
  obtain ⟨m', hm1, hm2, hm3, hm4⟩ := mineFrom_spec target fuel b b' h
  have hmm : m' = m := by
    rcases Nat.lt_trichotomy m' m with hlt | heq | hgt
    · rw [h3 m' hm1 hlt] at hm3; cases hm3
    · exact heq
    · rw [hm4 m h1 hgt] at h2; cases h2
  subst hmm
  exact hm2

/-- Field bookkeeping of a successful mining run: everything except `nonce`
and `hash` is unchanged, the stored hash is the recomputed canonical hash of
the final block (the hash field itself is not hashed), and it meets the
target. -/
theorem mineFrom_fields (target : String) (fuel : Nat) (b b' : Block)
    (h : mineFrom target fuel b = some b') :
    b'.index = b.index ∧ b'.timestamp = b.timestamp ∧ b'.transactions = b.transactions ∧
    b'.previous_hash = b.previous_hash ∧ b'.compute_hash = b'.hash ∧
    strStartsWith b'.hash target = true := by
  obtain ⟨m, _, hm2, hm3, _⟩ := mineFrom_spec target fuel b b' h
  subst hm2
  exact ⟨rfl, rfl, rfl, rfl, compute_hash_ext _ _ rfl rfl rfl rfl rfl, hm3⟩

/-- The last element of a list appended with one block. -/
theorem lastFrom_append : ∀ (l : List Block) (p c : Block), lastFrom p (l ++ [c]) = c := by
  intro l
  induction l with
  | nil => intro p c; rfl
  | cons x xs ih => intro p c; exact ih x c

/-- Unfolding of a successful `Blockchain.create`. -/
theorem create_eq (d : Int) (t fuel : Nat) (bc : Blockchain)
    (h : Blockchain.create d t fuel = some bc) :
    ∃ mined, mineFrom (difficultyZeros d) fuel
        { index := 0, timestamp := t, transactions := [], previous_hash := "0",
          nonce := 0, hash := "" } = some mined ∧
      bc = { chain := [mined], difficulty := d } := by
  simp only [Blockchain.create] at h
  split at h
  · cases h
  · next mined hm => exact ⟨mined, hm, (Option.some.inj h).symm⟩

/-- Unfolding of a successful `Blockchain.add_block`. -/
theorem add_eq (bc : Blockchain) (b : Block) (fuel : Nat) (bc' : Blockchain)
    (h : bc.add_block b fuel = some bc') :
    ∃ mined, mineFrom (difficultyZeros bc.difficulty) fuel
        { b with previous_hash := bc.last_block.hash } = some mined ∧
      bc' = { bc with chain := bc.chain ++ [mined] } := by
  simp only [Blockchain.add_block, Blockchain.mine_block] at h
  split at h
  · cases h
  · next mined hm => exact ⟨mined, hm, (Option.some.inj h).symm⟩

/-- Decomposition of the chain relation around a distinguished block. -/
theorem chainRel_split (target : String) :
    ∀ (xs : List Block) (p c : Block) (ys : List Block),
      ChainRel target p (xs ++ c :: ys) ↔
        ChainRel target p xs ∧ c.previous_hash = (lastFrom p xs).hash ∧
        c.compute_hash = c.hash ∧ strStartsWith c.hash target = true ∧ ChainRel target c ys := by
  intro xs
  induction xs with
  | nil =>
    intro p c ys
    simp only [List.nil_append, ChainRel, lastFrom, true_and]
  | cons x t ih =>
    intro p c ys
    simp only [List.cons_append, ChainRel, List.append_eq, ih x c ys, lastFrom, and_assoc]

/-- The pairwise validation loop succeeds exactly when the chain relation
holds from the head block onward. -/
theorem pairChecks_iff_chainRel (target : String) :
    ∀ (rest : List Block) (g : Block),
      pairChecks target (g :: rest) = true ↔ ChainRel target g rest := by
  intro rest
  induction rest with
  | nil => intro g; simp [pairChecks, ChainRel]
  | cons c t ih =>
    intro g
    rw [pairChecks]
    simp only [Bool.and_eq_true, beq_iff_eq, ih c, ChainRel, and_assoc]

/-- Characterization of `is_chain_valid` on a non-empty chain: the genesis
checks plus the chain relation along the tail. -/
theorem is_chain_valid_cons (bc : Blockchain) (g : Block) (rest : List Block)
    (h : bc.chain = g :: rest) :
    bc.is_chain_valid = true ↔
      (g.compute_hash = g.hash ∧
       strStartsWith g.hash (difficultyZeros bc.difficulty) = true ∧
       ChainRel (difficultyZeros bc.difficulty) g rest) := by
  rw [Blockchain.is_chain_valid, h]
  simp only [Bool.and_eq_true, beq_iff_eq, pairChecks_iff_chainRel]
  constructor
  · rintro ⟨⟨hrel, hcomp⟩, hpow⟩
    exact ⟨hcomp, hpow, hrel⟩
  · rintro ⟨hcomp, hpow, hrel⟩
    exact ⟨⟨hrel, hcomp⟩, hpow⟩

/-- Shifting the indexed formulation of the chain checks by one block. -/
theorem indexed_cons_iff (target : String) (g c : Block) (t : List Block) :
    (∀ i, ∀ h : i < (g :: c :: t).length,
      (0 < i → ((g :: c :: t).get ⟨i, h⟩).previous_hash
          = ((g :: c :: t).get ⟨i - 1, by omega⟩).hash) ∧
      ((g :: c :: t).get ⟨i, h⟩).compute_hash = ((g :: c :: t).get ⟨i, h⟩).hash ∧
      strStartsWith ((g :: c :: t).get ⟨i, h⟩).hash target = true) ↔
    ((g.compute_hash = g.hash ∧ strStartsWith g.hash target = true) ∧
     c.previous_hash = g.hash ∧
     (∀ i, ∀ h : i < (c :: t).length,
      (0 < i → ((c :: t).get ⟨i, h⟩).previous_hash
          = ((c :: t).get ⟨i - 1, by omega⟩).hash) ∧
      ((c :: t).get ⟨i, h⟩).compute_hash = ((c :: t).get ⟨i, h⟩).hash ∧
      strStartsWith ((c :: t).get ⟨i, h⟩).hash target = true)) := by
  constructor
  · intro H
    refine ⟨⟨(H 0 (by simp)).2.1, (H 0 (by simp)).2.2⟩, (H 1 (by simp)).1 (by omega), ?_⟩
    intro i h
    match i with
    | 0 =>
      exact ⟨fun hi => absurd hi (by omega), (H 1 (by simp)).2.1, (H 1 (by simp)).2.2⟩
    | j + 1 =>
      have hlt : j + 2 < (g :: c :: t).length := by
        simp at h ⊢; omega
      refine ⟨fun _ => (H (j + 2) hlt).1 (by omega), (H (j + 2) hlt).2.1, (H (j + 2) hlt).2.2⟩
  · intro H i h
    match i with
    | 0 =>
      exact ⟨fun hi => absurd hi (by omega), H.1.1, H.1.2⟩
    | 1 =>
      have h0 : 0 < (c :: t).length := by simp
      exact ⟨fun _ => H.2.1, (H.2.2 0 h0).2.1, (H.2.2 0 h0).2.2⟩
    | j + 2 =>
      have hlt : j + 1 < (c :: t).length := by
        simp at h ⊢; omega
      exact ⟨fun _ => (H.2.2 (j + 1) hlt).1 (by omega), (H.2.2 (j + 1) hlt).2.1,
        (H.2.2 (j + 1) hlt).2.2⟩

/-- The chain relation (plus head checks) coincides with the indexed per-block
formulation used by the specification. -/
theorem chainRel_iff_indexed (target : String) :
    ∀ (rest : List Block) (g : Block),
      (g.compute_hash = g.hash ∧ strStartsWith g.hash target = true ∧ ChainRel target g rest) ↔
      (∀ i, ∀ h : i < (g :: rest).length,
        (0 < i → ((g :: rest).get ⟨i, h⟩).previous_hash
            = ((g :: rest).get ⟨i - 1, by omega⟩).hash) ∧
        ((g :: rest).get ⟨i, h⟩).compute_hash = ((g :: rest).get ⟨i, h⟩).hash ∧
        strStartsWith ((g :: rest).get ⟨i, h⟩).hash target = true) := by
  intro rest
  induction rest with
  | nil =>
    intro g
    constructor
    · intro H i h
      match i with
      | 0 => exact ⟨fun hi => absurd hi (by omega), H.1, H.2.1⟩
    · intro H
      exact ⟨(H 0 (by simp)).2.1, (H 0 (by simp)).2.2, trivial⟩
  | cons c t ih =>
    intro g
    rw [indexed_cons_iff, ← ih c]
    simp only [ChainRel, and_assoc]

/-- The specification predicate on a non-empty chain coincides with the
genesis checks plus the chain relation. -/
theorem spec_chain_valid_iff (bc : Blockchain) (g : Block) (rest : List Block)
    (hc : bc.chain = g :: rest) :
    SpecChainValid bc ↔
      (g.compute_hash = g.hash ∧
       strStartsWith g.hash (difficultyZeros bc.difficulty) = true ∧
       ChainRel (difficultyZeros bc.difficulty) g rest) := by
  obtain ⟨ch, d⟩ := bc
  have hc' : ch = g :: rest := hc
  subst hc'
  constructor
  · intro H
    refine (chainRel_iff_indexed _ rest g).mpr (fun i h => ?_)
    have hgot := H i h
    exact ⟨hgot.1, hgot.2.1, (strStartsWith_iff_meets _ _).mpr hgot.2.2⟩
  · intro H i h
    have hgot := (chainRel_iff_indexed _ rest g).mp H i h
    exact ⟨hgot.1, hgot.2.1, (strStartsWith_iff_meets _ _).mp hgot.2.2⟩

/-- Quantification over members is quantification over positions. -/
theorem forall_mem_iff_get {α : Type} (l : List α) (P : α → Prop) :
    (∀ b ∈ l, P b) ↔ ∀ i, ∀ h : i < l.length, P (l.get ⟨i, h⟩) := by
  constructor
  · intro H i h
    exact H _ (l.get_mem _ _)
  · intro H b hb
    obtain ⟨n, rfl⟩ := List.mem_iff_get.mp hb
    exact H n.1 n.2

/-- The four ledger invariants are the non-emptiness of the chain plus the
per-index specification predicate. -/
theorem ledger_invariants_iff (bc : Blockchain) :
    LedgerInvariants bc ↔ bc.chain ≠ [] ∧ SpecChainValid bc := by
  unfold LedgerInvariants SpecChainValid
  rw [forall_mem_iff_get bc.chain (fun b => Block.compute_hash b = b.hash),
      forall_mem_iff_get bc.chain (fun b => hashMeetsDifficulty b.hash bc.difficulty)]
  constructor
  · rintro ⟨h1, h2, h3, h4⟩
    exact ⟨h1, fun i h => ⟨h2 i h, h3 i h, h4 i h⟩⟩
  · rintro ⟨h1, h2⟩
    exact ⟨h1, fun i h => (h2 i h).1, fun i h => (h2 i h).2.1, fun i h => (h2 i h).2.2⟩

/-- Construction establishes the ledger invariants. -/
theorem create_invariants (d : Int) (t fuel : Nat) (bc : Blockchain)
    (h : Blockchain.create d t fuel = some bc) : LedgerInvariants bc := by
  obtain ⟨mined, hm, rfl⟩ := create_eq d t fuel bc h
  have hf := mineFrom_fields _ _ _ _ hm
  rw [ledger_invariants_iff]
  refine ⟨by simp, ?_⟩
  rw [spec_chain_valid_iff _ mined [] rfl]
  exact ⟨hf.2.2.2.2.1, hf.2.2.2.2.2, trivial⟩

/-- A successful `add_block` preserves the ledger invariants. -/
theorem add_invariants (bc : Blockchain) (b : Block) (fuel : Nat) (bc' : Blockchain)
    (hwf : LedgerInvariants bc) (h : bc.add_block b fuel = some bc') : LedgerInvariants bc' := by
  obtain ⟨mined, hm, rfl⟩ := add_eq bc b fuel bc' h
  obtain ⟨hne, hspec⟩ := (ledger_invariants_iff bc).mp hwf
  obtain ⟨g, rest, hc⟩ := List.exists_cons_of_ne_nil hne
  have hgr := (spec_chain_valid_iff bc g rest hc).mp hspec
  have hf := mineFrom_fields _ _ _ _ hm
  rw [ledger_invariants_iff]
  refine ⟨by simp, ?_⟩
  have hc' : ({ bc with chain := bc.chain ++ [mined] } : Blockchain).chain
      = g :: (rest ++ [mined]) := by simp [hc]
  rw [spec_chain_valid_iff _ g (rest ++ [mined]) hc']
  refine ⟨hgr.1, hgr.2.1, ?_⟩
  rw [show rest ++ [mined] = rest ++ mined :: [] from rfl, chainRel_split]
  refine ⟨hgr.2.2, ?_, hf.2.2.2.2.1, hf.2.2.2.2.2, trivial⟩
  have h1 : mined.previous_hash = bc.last_block.hash := hf.2.2.2.1
  rw [h1, Blockchain.last_block, hc]
  rfl

/-- Every ledger reachable by construction and appends satisfies the
invariants. -/
theorem built_invariants (bc : Blockchain) (h : Built bc) : LedgerInvariants bc := by
  induction h with
  | create d t fuel bc hc => exact create_invariants d t fuel bc hc
  | add bc b fuel bc' _ hadd ih => exact add_invariants bc b fuel bc' ih hadd

/-- The ledger invariants make `is_chain_valid` succeed. -/
theorem invariants_imply_valid (bc : Blockchain) (hwf : LedgerInvariants bc) :
    bc.is_chain_valid = true := by
  obtain ⟨hne, hspec⟩ := (ledger_invariants_iff bc).mp hwf
  obtain ⟨g, rest, hc⟩ := List.exists_cons_of_ne_nil hne
  rw [is_chain_valid_cons bc g rest hc]
  exact (spec_chain_valid_iff bc g rest hc).mp hspec

/-- A valid chain has, at every position, a correct stored hash and correct
linkage to the following block. -/
theorem valid_stored_and_link (bc : Blockchain) (l1 : List Block) (c d : Block) (l2 : List Block)
    (hc : bc.chain = l1 ++ c :: d :: l2) (hv : bc.is_chain_valid = true) :
    c.compute_hash = c.hash ∧ d.previous_hash = c.hash := by
  cases l1 with
  | nil =>
    simp only [List.nil_append] at hc
    have hcons := (is_chain_valid_cons bc c (d :: l2) hc).mp hv
    exact ⟨hcons.1, hcons.2.2.1⟩
  | cons x t =>
    have hc' : bc.chain = x :: (t ++ c :: d :: l2) := by simpa using hc
    have hcons := (is_chain_valid_cons bc x (t ++ c :: d :: l2) hc').mp hv
    have hsplit := (chainRel_split _ t x c (d :: l2)).mp hcons.2.2
    exact ⟨hsplit.2.2.1, hsplit.2.2.2.2.1⟩

/-- `add_block` succeeds once some nonce from the starting one onward makes
the re-linked candidate's hash meet the target. -/
theorem add_block_succeeds (bc : Blockchain) (b : Block) (m : Nat)
    (h1 : b.nonce ≤ m)
    (h2 : strStartsWith
        (Block.compute_hash { b with previous_hash := bc.last_block.hash, nonce := m })
        (difficultyZeros bc.difficulty) = true) :
    (bc.add_block b (m - b.nonce + 1)).isSome = true := by
  simp only [Blockchain.add_block, Blockchain.mine_block]
  have hs := mineFrom_complete (difficultyZeros bc.difficulty) (m - b.nonce + 1)
      { b with previous_hash := bc.last_block.hash } m h1
      (by show m < b.nonce + (m - b.nonce + 1); omega) h2
  obtain ⟨mined, hmm⟩ := Option.isSome_iff_exists.mp hs
  rw [hmm]
  rfl

/-- The state-passing validation loop computes the boolean loop result and
returns the state it was given. -/
theorem pairChecksRun_eq (target : String) :
    ∀ (l : List Block) (st : Blockchain),
      pairChecksRun target l st = (pairChecks target l, st) := by
  intro l
  induction l with
  | nil => intro st; rfl
  | cons x xs ih =>
    intro st
    cases xs with
    | nil => rfl
    | cons y ys =>
      simp only [pairChecksRun, pairChecks]
      cases hb1 : (y.previous_hash == x.hash) with
      | false => simp [hb1]
      | true =>
        cases hb2 : (y.compute_hash == y.hash) with
        | false => simp [hb1, hb2]
        | true =>
          cases hb3 : strStartsWith y.hash target with
          | false => simp [hb1, hb2, hb3]
          | true => simp [hb1, hb2, hb3, ih st]

/-- The state-passing rendition of `is_chain_valid` returns the same verdict
as the boolean function, paired with the unchanged ledger state. -/
theorem is_chain_valid_run_eq (bc : Blockchain) :
    bc.is_chain_valid_run = (bc.is_chain_valid, bc) := by
  obtain ⟨ch, d⟩ := bc
  cases ch with
  | nil => rfl
  | cons g rest =>
    simp only [Blockchain.is_chain_valid_run, Blockchain.is_chain_valid, pairChecksRun_eq]
    cases hpc : pairChecks (difficultyZeros d) (g :: rest) with
    | false => simp [hpc]
    | true => simp [hpc]

/-- Mining with fuel 1 against a non-positive difficulty succeeds on the first
attempt, leaving the nonce unchanged and storing the canonical hash. -/
theorem mineFrom_one_nonpos (d : Int) (hd : d ≤ 0) (b : Block) :
    mineFrom (difficultyZeros d) 1 b = some { b with hash := b.compute_hash } := by
  have hcond := strStartsWith_nonpos b.compute_hash d hd
  show (if strStartsWith b.compute_hash (difficultyZeros d) then
      some { b with hash := b.compute_hash }
    else mineFrom (difficultyZeros d) 0 { b with nonce := b.nonce + 1 })
    = some { b with hash := b.compute_hash }
  simp [hcond]

/-- C1: `is_chain_valid` returns true if and only if, for every `i > 0`,
`chain[i].previous_hash` equals `chain[i-1].hash` by exact string equality,
every block at `i > 0` has stored hash equal to its recomputed canonical hash
and at least `difficulty` leading zero hex characters, and the genesis block
passes the same recomputed-hash and prefix checks; the genesis
`previous_hash` sentinel is never compared to a predecessor (the predicate
only constrains `previous_hash` at positive indices) and the verdict is a
single boolean carrying no indication of which check failed. -/
theorem is_chain_valid_iff_all_checks (bc : Blockchain) (h : bc.chain ≠ []) :
    bc.is_chain_valid = true ↔ SpecChainValid bc := by
  obtain ⟨g, rest, hc⟩ := List.exists_cons_of_ne_nil h
  rw [is_chain_valid_cons bc g rest hc, spec_chain_valid_iff bc g rest hc]

/-- C1 witness: the two-block difficulty-0 ledger instantiates the
equivalence. -/
theorem is_chain_valid_iff_all_checks_witness :
    bcTwo.chain ≠ [] ∧ (bcTwo.is_chain_valid = true ↔ SpecChainValid bcTwo) :=
  ⟨by decide, is_chain_valid_iff_all_checks bcTwo (by decide)⟩

/-- C2: after construction and after every successful `add_block`, the four
ledger invariants hold: non-empty chain, pairwise linkage, stored hashes equal
to recomputed canonical hashes, and the difficulty prefix on every stored
hash. -/
theorem ledger_invariants_hold_after_mutations :
    (∀ (d : Int) (t fuel : Nat) (bc : Blockchain),
        Blockchain.create d t fuel = some bc → LedgerInvariants bc) ∧
    (∀ (bc : Blockchain) (b : Block) (fuel : Nat) (bc' : Blockchain),
        LedgerInvariants bc → bc.add_block b fuel = some bc' → LedgerInvariants bc') :=
  ⟨create_invariants, add_invariants⟩

/-- C2 witness: the invariants hold for the concrete one-block and two-block
difficulty-0 ledgers produced by construction and one append. -/
theorem ledger_invariants_hold_after_mutations_witness :
    LedgerInvariants bcOne ∧ LedgerInvariants bcTwo :=
  ⟨ledger_invariants_hold_after_mutations.1 0 1000 1 bcOne rfl,
   ledger_invariants_hold_after_mutations.2 bcOne cand1 1 bcTwo
     (ledger_invariants_hold_after_mutations.1 0 1000 1 bcOne rfl) rfl⟩

/-- C3: started from the block's current nonce, mining terminates at the
least satisfying nonce `m` (reached within `m - nonce + 1` attempts, the
nonce advancing by exactly 1 per failed attempt), stores exactly the
canonical hash of the block at that nonce, which meets the difficulty target;
the result is the same whatever the fuel, and for difficulty 0 mining
succeeds immediately with the nonce unchanged (0 for a fresh block). -/
theorem mine_block_correct (bc : Blockchain) (b : Block) (m : Nat)
    (h1 : b.nonce ≤ m)
    (h2 : strStartsWith (Block.compute_hash { b with nonce := m })
        (difficultyZeros bc.difficulty) = true)
    (h3 : ∀ k, b.nonce ≤ k → k < m →
        strStartsWith (Block.compute_hash { b with nonce := k })
          (difficultyZeros bc.difficulty) = false) :
    bc.mine_block b (m - b.nonce + 1)
        = some { b with nonce := m, hash := Block.compute_hash { b with nonce := m } } ∧
    Block.compute_hash { b with nonce := m, hash := Block.compute_hash { b with nonce := m } }
        = Block.compute_hash { b with nonce := m } ∧
    strStartsWith (Block.compute_hash { b with nonce := m })
        (difficultyZeros bc.difficulty) = true ∧
    (∀ (fuel : Nat) (b' : Block), bc.mine_block b fuel = some b' →
        b' = { b with nonce := m, hash := Block.compute_hash { b with nonce := m } }) ∧
    (bc.difficulty = 0 → bc.mine_block b 1 = some { b with hash := b.compute_hash }) := by
  have hcomplete := mineFrom_complete (difficultyZeros bc.difficulty) (m - b.nonce + 1) b m h1
      (by omega) h2
  obtain ⟨b', hb'⟩ := Option.isSome_iff_exists.mp hcomplete
  have hleast := mineFrom_least (difficultyZeros bc.difficulty) b m h1 h2 h3
  refine ⟨?_, compute_hash_ext _ _ rfl rfl rfl rfl rfl, h2, hleast, ?_⟩
  · show mineFrom (difficultyZeros bc.difficulty) (m - b.nonce + 1) b = _
    rw [hb', hleast _ _ hb']
  · intro hd
    exact mineFrom_one_nonpos bc.difficulty (le_of_eq hd) b

set_option maxHeartbeats 40000000 in
/-- C3 witness: at difficulty 1, mining the concrete block `bT` from nonce 0
takes exactly 4 attempts and stops at nonce 3, the least satisfying one. -/
theorem mine_block_correct_witness :
    bcDiffOne.mine_block bT 4
      = some { bT with nonce := 3, hash := Block.compute_hash { bT with nonce := 3 } } ∧
    strStartsWith (Block.compute_hash { bT with nonce := 3 })
      (difficultyZeros bcDiffOne.difficulty) = true := by
  have hlt : ∀ k, k < 3 → strStartsWith (Block.compute_hash { bT with nonce := k })
      (difficultyZeros bcDiffOne.difficulty) = false := by decide
  have h := mine_block_correct bcDiffOne bT 3 (by decide) (by decide) (fun k _ hk => hlt k hk)
  exact ⟨h.1, h.2.2.1⟩

/-- C4: on a ledger built only by construction and appends, replacing a
non-terminal block `b` by a mutated block `b'` (either its stored hash field
changed, or another field changed so that — absent a SHA-256 collision — its
recomputed canonical hash changes) makes `is_chain_valid` return false. -/
theorem tampering_invalidates_chain (bc : Blockchain) (l1 : List Block) (b b2 : Block)
    (l2 : List Block) (b' : Block)
    (hb : Built bc)
    (hc : bc.chain = l1 ++ b :: b2 :: l2)
    (hne : b' ≠ b)
    (hnc : b'.hash = b.hash → b'.compute_hash ≠ b.compute_hash) :
    Blockchain.is_chain_valid { bc with chain := l1 ++ b' :: b2 :: l2 } = false := by
  rcases Bool.eq_false_or_eq_true
      (Blockchain.is_chain_valid { bc with chain := l1 ++ b' :: b2 :: l2 }) with ht | hf
  case inr => exact hf
  case inl =>
    exfalso
    have hvorig := invariants_imply_valid bc (built_invariants bc hb)
    have ho := valid_stored_and_link bc l1 b b2 l2 hc hvorig
    have htam := valid_stored_and_link { bc with chain := l1 ++ b' :: b2 :: l2 }
        l1 b' b2 l2 rfl ht
    have hh : b'.hash = b.hash := by rw [← htam.2, ho.2]
    refine hnc hh ?_
    rw [htam.1, hh]
    exact ho.1.symm

set_option maxHeartbeats 40000000 in
/-- C4 witness: flipping the middle block's transaction `candidate_id` from
"c1" to "c2" in the concrete three-block ledger, without re-mining, makes
validation fail. -/
theorem tampering_invalidates_chain_witness :
    Blockchain.is_chain_valid { chain := [gMined, b1Tampered, b2Mined], difficulty := 0 }
      = false := by
  have hbuilt : Built bcThree :=
    Built.add bcTwo cand2 1 bcThree
      (Built.add bcOne cand1 1 bcTwo (Built.create 0 1000 1 bcOne rfl) rfl) rfl
  exact tampering_invalidates_chain bcThree [gMined] b1Mined b2Mined [] b1Tampered hbuilt rfl
    (by decide) (fun _ => by decide)

/-- C5: a freshly constructed ledger with difficulty `d` stores that
difficulty and contains exactly one block, with index 0, empty transactions,
the sentinel previous hash "0", a stored hash equal to its recomputed
canonical hash, and at least `d` leading zero characters in that hash. -/
theorem genesis_construction_correct (d : Int) (t fuel : Nat) (bc : Blockchain)
    (h : Blockchain.create d t fuel = some bc) :
    bc.difficulty = d ∧
    bc.chain.length = 1 ∧
    (bc.chain.headD emptyBlock).index = 0 ∧
    (bc.chain.headD emptyBlock).transactions = [] ∧
    (bc.chain.headD emptyBlock).previous_hash = "0" ∧
    (bc.chain.headD emptyBlock).compute_hash = (bc.chain.headD emptyBlock).hash ∧
    hashMeetsDifficulty (bc.chain.headD emptyBlock).hash d := by
  obtain ⟨mined, hm, rfl⟩ := create_eq d t fuel bc h
  have hf := mineFrom_fields _ _ _ _ hm
  exact ⟨rfl, rfl, hf.1, hf.2.2.1, hf.2.2.2.1, hf.2.2.2.2.1,
    (strStartsWith_iff_meets _ _).mp hf.2.2.2.2.2⟩

/-- C5 witness: the difficulty-0 construction at timestamp 1000. -/
theorem genesis_construction_correct_witness :
    Blockchain.create 0 1000 1 = some bcOne ∧
    bcOne.difficulty = 0 ∧
    bcOne.chain.length = 1 ∧
    (bcOne.chain.headD emptyBlock).index = 0 ∧
    (bcOne.chain.headD emptyBlock).transactions = [] ∧
    (bcOne.chain.headD emptyBlock).previous_hash = "0" ∧
    (bcOne.chain.headD emptyBlock).compute_hash = (bcOne.chain.headD emptyBlock).hash ∧
    hashMeetsDifficulty (bcOne.chain.headD emptyBlock).hash 0 := by
  have h := genesis_construction_correct 0 1000 1 bcOne rfl
  exact ⟨rfl, h.1, h.2.1, h.2.2.1, h.2.2.2.1, h.2.2.2.2.1, h.2.2.2.2.2.1, h.2.2.2.2.2.2⟩

/-- C6: `add_block` overwrites the candidate's `previous_hash` with the
current last block's hash (whatever the caller supplied is discarded — the
result does not depend on it), mines, and appends: once some nonce from the
starting one onward satisfies the target the call succeeds, and any
successful call extends the chain by exactly the relinked mined candidate,
leaving all previously appended blocks unchanged. -/
theorem add_block_appends_relinked_candidate (bc : Blockchain) (b : Block) (m : Nat)
    (h1 : b.nonce ≤ m)
    (h2 : strStartsWith
        (Block.compute_hash { b with previous_hash := bc.last_block.hash, nonce := m })
        (difficultyZeros bc.difficulty) = true) :
    (bc.add_block b (m - b.nonce + 1)).isSome = true ∧
    (∀ (fuel : Nat) (bc' : Blockchain), bc.add_block b fuel = some bc' →
      bc'.difficulty = bc.difficulty ∧
      bc'.chain.length = bc.chain.length + 1 ∧
      bc'.chain.take bc.chain.length = bc.chain ∧
      bc'.chain = bc.chain ++ [bc'.last_block] ∧
      bc'.last_block.index = b.index ∧
      bc'.last_block.timestamp = b.timestamp ∧
      bc'.last_block.transactions = b.transactions ∧
      bc'.last_block.previous_hash = bc.last_block.hash ∧
      bc'.last_block.compute_hash = bc'.last_block.hash ∧
      strStartsWith bc'.last_block.hash (difficultyZeros bc.difficulty) = true) ∧
    (∀ (ph : String) (fuel : Nat),
      bc.add_block { b with previous_hash := ph } fuel = bc.add_block b fuel) := by
  refine ⟨add_block_succeeds bc b m h1 h2, ?_, fun ph fuel => rfl⟩
  intro fuel bc' h
  obtain ⟨mined, hm, rfl⟩ := add_eq bc b fuel bc' h
  have hf := mineFrom_fields _ _ _ _ hm
  have hlast : ({ bc with chain := bc.chain ++ [mined] } : Blockchain).last_block = mined :=
    lastFrom_append bc.chain emptyBlock mined
  refine ⟨rfl, by simp, ?_, ?_, ?_, ?_, ?_, ?_, ?_, ?_⟩
  · show (bc.chain ++ [mined]).take bc.chain.length = bc.chain
    exact List.take_left bc.chain [mined]
  · show bc.chain ++ [mined] = bc.chain ++ [_]
    rw [hlast]
  · rw [hlast]; exact hf.1
  · rw [hlast]; exact hf.2.1
  · rw [hlast]; exact hf.2.2.1
  · rw [hlast]; exact hf.2.2.2.1
  · rw [hlast]; exact hf.2.2.2.2.1
  · rw [hlast]; exact hf.2.2.2.2.2

/-- C6 witness: appending the concrete candidate to the one-block
difficulty-0 ledger; the candidate's own `previous_hash` ("ignored" or
"other") plays no role. -/
theorem add_block_appends_relinked_candidate_witness :
    (bcOne.add_block cand1 1).isSome = true ∧
    bcTwo.difficulty = bcOne.difficulty ∧
    bcTwo.chain.length = bcOne.chain.length + 1 ∧
    bcTwo.chain = bcOne.chain ++ [bcTwo.last_block] ∧
    bcTwo.last_block.transactions = cand1.transactions ∧
    bcTwo.last_block.previous_hash = bcOne.last_block.hash ∧
    Blockchain.add_block bcOne { cand1 with previous_hash := "other" } 1
      = bcOne.add_block cand1 1 := by
  have h := add_block_appends_relinked_candidate bcOne cand1 0 (by decide)
      (strStartsWith_nonpos _ _ (by decide))
  have h2 := h.2.1 1 bcTwo rfl
  exact ⟨h.1, h2.1, h2.2.1, h2.2.2.2.1, h2.2.2.2.2.2.2.1, h2.2.2.2.2.2.2.2.1, h.2.2 "other" 1⟩

/-- C7: the canonical hash is a pure function of exactly the five fields
`index`, `timestamp`, `transactions`, `previous_hash` and `nonce`: blocks
agreeing on them (in particular, differing only in the stored `hash` field)
get the same digest.  As a Lean function of the block value it is
deterministic and mutates nothing by construction. -/
theorem compute_hash_depends_only_on_logical_fields (b1 b2 : Block)
    (h1 : b1.index = b2.index) (h2 : b1.timestamp = b2.timestamp)
    (h3 : b1.transactions = b2.transactions) (h4 : b1.previous_hash = b2.previous_hash)
    (h5 : b1.nonce = b2.nonce) :
    b1.compute_hash = b2.compute_hash :=
  compute_hash_ext b1 b2 h1 h2 h3 h4 h5

/-- C7 witness: overwriting only the stored hash field leaves the digest
unchanged. -/
theorem compute_hash_depends_only_on_logical_fields_witness :
    Block.compute_hash { gBlock with hash := "ffff" } = Block.compute_hash gBlock :=
  compute_hash_depends_only_on_logical_fields _ _ rfl rfl rfl rfl rfl

set_option maxHeartbeats 40000000 in
/-- C8 counterexample: the constructor does not fail fast on a negative
difficulty.  With difficulty -1 construction succeeds on the very first
mining attempt (Python's `"0" * d` is empty for `d ≤ 0`) and even yields a
ledger that validates, refuting the claim that malformed difficulties are
rejected with an error. -/
theorem negative_difficulty_rejected_is_false :
    Blockchain.create (-1) 1000 1 = some { chain := [gMined], difficulty := -1 } ∧
    Blockchain.is_chain_valid { chain := [gMined], difficulty := -1 } = true := by
  constructor
  · rfl
  · decide

/-- C8 amended: `Blockchain.__init__` performs no validation of `difficulty`;
constructing with any non-positive difficulty proceeds without error — the
PoW target is the empty string, so the genesis mines immediately at nonce 0
(no infinite loop), and the resulting ledger validates. -/
theorem nonpositive_difficulty_construction_proceeds (d : Int) (hd : d ≤ 0) (t : Nat) :
    Blockchain.create d t 1 = some { chain := [genesisMinedAt t], difficulty := d } ∧
    (∀ bc : Blockchain, Blockchain.create d t 1 = some bc → bc.is_chain_valid = true) := by
  constructor
  · simp only [Blockchain.create, mineFrom_one_nonpos d hd]
    rfl
  · exact fun bc h => invariants_imply_valid bc (create_invariants d t 1 bc h)

/-- C8 amended witness: difficulty -1 at timestamp 1001. -/
theorem nonpositive_difficulty_construction_proceeds_witness :
    Blockchain.create (-1) 1001 1 = some { chain := [genesisMinedAt 1001], difficulty := -1 } ∧
    Blockchain.is_chain_valid { chain := [genesisMinedAt 1001], difficulty := -1 } = true := by
  have h := nonpositive_difficulty_construction_proceeds (-1) (by decide) 1001
  exact ⟨h.1, h.2 _ h.1⟩

/-- C9: validation is a pure read-only traversal — the state-passing
rendition returns the ledger unchanged and the same verdict as the boolean
function, and running it again on the returned state yields the same
boolean. -/
theorem is_chain_valid_pure_and_idempotent (bc : Blockchain) :
    bc.is_chain_valid_run.2 = bc ∧
    bc.is_chain_valid_run.1 = bc.is_chain_valid ∧
    (bc.is_chain_valid_run.2.is_chain_valid_run).1 = bc.is_chain_valid_run.1 := by
  refine ⟨?_, ?_, ?_⟩ <;> simp [is_chain_valid_run_eq]

/-- C10: neither `add_block` nor `is_chain_valid` compares a block's `index`
field to its chain position: for any candidate whose index differs from the
chain length (the `hidx` hypothesis is never used by the proof), the append
still succeeds and the resulting chain still validates. -/
theorem block_index_never_validated (bc : Blockchain) (b : Block) (m : Nat)
    (hwf : LedgerInvariants bc)
    (hidx : b.index ≠ bc.chain.length)
    (h1 : b.nonce ≤ m)
    (h2 : strStartsWith
        (Block.compute_hash { b with previous_hash := bc.last_block.hash, nonce := m })
        (difficultyZeros bc.difficulty) = true) :
    (bc.add_block b (m - b.nonce + 1)).isSome = true ∧
    ∀ (fuel : Nat) (bc' : Blockchain), bc.add_block b fuel = some bc' →
      bc'.is_chain_valid = true :=
  ⟨add_block_succeeds bc b m h1 h2,
   fun fuel bc' h => invariants_imply_valid bc' (add_invariants bc b fuel bc' hwf h)⟩

/-- C10 witness: appending a candidate carrying index 5 to the one-block
ledger succeeds and the result validates. -/
theorem block_index_never_validated_witness :
    candIdx5.index ≠ bcOne.chain.length ∧
    (bcOne.add_block candIdx5 1).isSome = true ∧
    bcIdx5.is_chain_valid = true := by
  have hwf : LedgerInvariants bcOne := create_invariants 0 1000 1 bcOne rfl
  have h := block_index_never_validated bcOne candIdx5 0 hwf (by decide) (by decide)
      (strStartsWith_nonpos _ _ (by decide))
  exact ⟨by decide, h.1, h.2 1 bcIdx5 rfl⟩
